import Mathlib

/-
Verification of the synthesis pipeline of the edgetts-cloudflare-workers-webui
worker: text cleaning, sentence-aware chunking, batch scheduling, ordered
reassembly, and the session-token manager.  The JavaScript source is embedded
shallowly: strings are lists of characters, fetch results are oracles passed as
arguments, and the shared token cache is explicit state.
-/

namespace EdgeTTS

/-- Text is modelled as a list of characters (one entry per code point; the
JavaScript `length` counts UTF-16 units, which coincides for all characters
appearing in this development). -/
abbrev Text := List Char

/-- The JavaScript whitespace class used by `trim` and the regex class
backslash-s, restricted to its ASCII members (the Unicode space separators also
in that class play no role in any claim). -/
def isWs (c : Char) : Bool :=
  c == ' ' || c == '\t' || c == '\n' || c == '\r' || c == '\x0b' || c == '\x0c'

/-- The horizontal-whitespace class of the regex character class holding a
space and a tab, used by the variants that collapse only non-newline runs. -/
def isHWs (c : Char) : Bool :=
  c == ' ' || c == '\t'

/-- The sentence/clause delimiter class of smartChunkText
(src/_worker.js line 271): ASCII and CJK terminal punctuation plus CR/LF. -/
def isDelim (c : Char) : Bool :=
  c == '.' || c == '?' || c == '!' || c == ',' || c == ';' || c == ':' || c == '\n' ||
  c == '。' || c == '？' || c == '！' || c == '，' || c == '；' || c == '：' || c == '\r'

/-- JavaScript String.prototype.trim: drop leading and trailing whitespace. -/
def trimC (l : Text) : Text :=
  ((l.dropWhile isWs).reverse.dropWhile isWs).reverse

/-- Bounded slicing loop shared by several source sites
(`for (i = 0; i < xs.length; i += k) out.push(xs.slice(i, i + k))`):
the fallback of smartChunkText (src/_worker.js lines 282-284), the batch
partition of pipeChunksToStream and getVoice (lines 142-143 and 164-165), and
the fixed 2000-wide chunking of the part_000 variant (lines 183-187).
Structured with explicit fuel so that it is structurally recursive; the length
of the list is enough fuel whenever `1 ≤ k`.  For `k = 0` the JavaScript loop
never terminates; the model returns `[]` there, and every theorem below
assumes `1 ≤ k`. -/
def sliceEveryGo (fuel : Nat) (l : List α) (k : Nat) : List (List α) :=
  match fuel, l with
  | 0, _ => []
  | _, [] => []
  | fuel + 1, a :: rest => ((a :: rest).take k) :: sliceEveryGo fuel ((a :: rest).drop k) k

/-- Slice a list into consecutive pieces of width `k` (see `sliceEveryGo`). -/
def sliceEvery (l : List α) (k : Nat) : List (List α) :=
  sliceEveryGo l.length l k

/-- Maximal runs of elements agreeing on the predicate `p`; this is the run
decomposition underlying a JavaScript split on a one-or-more character-class
regex. -/
def runsByP (p : α → Bool) : List α → List (List α)
  | [] => []
  | c :: rest =>
    match runsByP p rest with
    | [] => [[c]]
    | r :: rs =>
      match r with
      | [] => [c] :: rs
      | d :: _ => if p c == p d then (c :: r) :: rs else [c] :: r :: rs

/-- Whether the first run of a run decomposition is a delimiter run. -/
def headRunIsDelim (rs : List Text) : Bool :=
  match rs with
  | (c :: _) :: _ => isDelim c
  | _ => false

/-- Whether the last run of a run decomposition is a delimiter run. -/
def lastRunIsDelim (rs : List Text) : Bool :=
  match rs.getLast? with
  | some (c :: _) => isDelim c
  | _ => false

/-- JavaScript `text.split(regex)` where the regex is the captured
one-or-more delimiter class of smartChunkText: the text alternates between
non-delimiter stretches and maximal delimiter runs, both kept in the output,
with an empty leading piece when the text starts with a delimiter, an empty
trailing piece when it ends with one, and a single empty piece for the empty
string. -/
def jsSplitDelims (l : Text) : List Text :=
  match l with
  | [] => [[]]
  | c :: rest =>
    let rs := runsByP isDelim (c :: rest)
    (if headRunIsDelim rs then ([] : Text) :: rs else rs) ++
      (if lastRunIsDelim rs then [([] : Text)] else [])

/-- Loop state of smartChunkText.  `chunks` and `cur` mirror the source
variables `chunks` and `currentChunk`; `segs` is a ghost field, absent from the
source, recording every flushed `currentChunk` verbatim (untrimmed, and
including the whitespace-only ones the source drops), used to state the
no-loss/no-duplication property. -/
structure ChunkState where
  chunks : List Text
  segs : List Text
  cur : Text

/-- Loop body of smartChunkText (src/_worker.js lines 272-279): append the
piece to the running buffer when it fits, otherwise flush the trimmed buffer
(dropping it when it trims to nothing) and restart the buffer from the
piece. -/
def chunkStep (maxChunkLength : Nat) (st : ChunkState) (part : Text) : ChunkState :=
  if st.cur.length + part.length ≤ maxChunkLength then
    { st with cur := st.cur ++ part }
  else
    { chunks := st.chunks ++ (if (trimC st.cur).isEmpty then [] else [trimC st.cur]),
      segs := st.segs ++ [st.cur],
      cur := part }

/-- Final flush after the loop of smartChunkText (src/_worker.js line 280). -/
def chunkFlush (st : ChunkState) : ChunkState :=
  { chunks := st.chunks ++ (if (trimC st.cur).isEmpty then [] else [trimC st.cur]),
    segs := st.segs ++ [st.cur],
    cur := [] }

/-- smartChunkText (src/_worker.js lines 267-287): split on the delimiter
class keeping delimiters, greedily accumulate pieces up to `maxChunkLength`,
flush trimmed non-empty buffers; if nothing survived and the text is non-empty,
fall back to fixed-width slicing; finally keep only non-empty chunks. -/
def smartChunkText (text : Text) (maxChunkLength : Nat) : List Text :=
  if text.isEmpty then []
  else
    let fin := chunkFlush ((jsSplitDelims text).foldl (chunkStep maxChunkLength) ⟨[], [], []⟩)
    let chunks :=
      if fin.chunks.isEmpty && !text.isEmpty then sliceEvery text maxChunkLength
      else fin.chunks
    chunks.filter (fun c => decide (0 < c.length))

/-- Ghost companion of smartChunkText: the list of all flushed buffers, in
order, before trimming and before the empty ones are dropped. -/
def smartChunkSegs (text : Text) (maxChunkLength : Nat) : List Text :=
  if text.isEmpty then []
  else (chunkFlush ((jsSplitDelims text).foldl (chunkStep maxChunkLength) ⟨[], [], []⟩)).segs

/-! Basic facts about the run decomposition and the split. -/

theorem runsByP_join (p : α → Bool) : ∀ l : List α, (runsByP p l).flatten = l := by
  intro l
  induction l with
  | nil => rfl
  | cons c rest ih =>
    rw [runsByP]
    rcases h : runsByP p rest with _ | ⟨r, rs⟩
    · rw [h] at ih
      simp only [List.flatten_nil] at ih
      simp [← ih]
    · rw [h] at ih
      rcases r with _ | ⟨d, r2⟩
      · simp only [List.flatten_cons, List.nil_append] at ih
        simp [← ih]
      · by_cases hpd : p c == p d
        · simp only [hpd, if_true]
          simp only [List.flatten_cons] at ih ⊢
          simp [← ih]
        · simp only [hpd, if_false]
          simp only [List.flatten_cons] at ih ⊢
          simp [← ih]

theorem runsByP_ne_nil (p : α → Bool) : ∀ l : List α, ∀ r ∈ runsByP p l, r ≠ [] := by
  intro l
  induction l with
  | nil => intro r hr; simp [runsByP] at hr
  | cons c rest ih =>
    intro r hr
    rw [runsByP] at hr
    rcases h : runsByP p rest with _ | ⟨r0, rs⟩ <;> rw [h] at hr
    · simp at hr; simp [hr]
    · rcases r0 with _ | ⟨d, r2⟩
      · rcases List.mem_cons.mp hr with h1 | h2
        · simp [h1]
        · exact ih r (h ▸ List.mem_cons_of_mem _ h2)
      · by_cases hpd : p c == p d <;> simp only [hpd, if_true, if_false] at hr
        · rcases List.mem_cons.mp hr with h1 | h2
          · simp [h1]
          · exact ih r (h ▸ List.mem_cons_of_mem _ h2)
        · rcases List.mem_cons.mp hr with h1 | h2
          · simp [h1]
          · exact ih r (h ▸ h2)

theorem runsByP_uniform (p : α → Bool) (b : Bool) :
    ∀ l : List α, l ≠ [] → (∀ a ∈ l, p a = b) → runsByP p l = [l] := by
  intro l
  induction l with
  | nil => intro h; exact absurd rfl h
  | cons c rest ih =>
    intro _ hall
    rcases rest with _ | ⟨d, rest2⟩
    · rfl
    · have hrest : runsByP p (d :: rest2) = [d :: rest2] := by
        refine ih (by simp) ?_
        intro a ha; exact hall a (List.mem_cons_of_mem _ ha)
      rw [runsByP, hrest]
      have hc : p c = b := hall c (List.mem_cons_self _ _)
      have hd : p d = b := hall d (List.mem_cons_of_mem _ (List.mem_cons_self _ _))
      simp [hc, hd]

theorem jsSplitDelims_join : ∀ l : Text, (jsSplitDelims l).flatten = l := by
  intro l
  rcases l with _ | ⟨c, rest⟩
  · rfl
  · show (jsSplitDelims (c :: rest)).flatten = c :: rest
    rw [jsSplitDelims]
    split <;> split <;>
      simp [List.flatten_append, runsByP_join]

theorem jsSplitDelims_nondelim (l : Text) (hne : l ≠ [])
    (h : ∀ c ∈ l, isDelim c = false) : jsSplitDelims l = [l] := by
  rcases l with _ | ⟨c, rest⟩
  · exact absurd rfl hne
  · have hr : runsByP isDelim (c :: rest) = [c :: rest] :=
      runsByP_uniform isDelim false _ (by simp) h
    show jsSplitDelims (c :: rest) = [c :: rest]
    rw [jsSplitDelims, hr]
    have hc : isDelim c = false := h c (List.mem_cons_self _ _)
    simp [headRunIsDelim, lastRunIsDelim, hc]

/-! Basic facts about the slicing loop. -/

theorem sliceEveryGo_congr (k : Nat) (hk : 1 ≤ k) :
    ∀ fuel fuel2 : Nat, ∀ l : List α, l.length ≤ fuel → l.length ≤ fuel2 →
      sliceEveryGo fuel l k = sliceEveryGo fuel2 l k := by
  intro fuel
  induction fuel with
  | zero =>
    intro fuel2 l h1 _
    have : l = [] := List.length_eq_zero.mp (Nat.le_zero.mp h1)
    subst this
    cases fuel2 <;> rfl
  | succ fuel ih =>
    intro fuel2 l h1 h2
    rcases l with _ | ⟨a, rest⟩
    · cases fuel2 <;> rfl
    · rcases fuel2 with _ | fuel2
      · simp at h2
      · rw [sliceEveryGo, sliceEveryGo]
        congr 1
        refine ih fuel2 _ ?_ ?_ <;> simp only [List.length_drop, List.length_cons] at * <;> omega

theorem sliceEvery_nil (k : Nat) : sliceEvery ([] : List α) k = [] := rfl

theorem sliceEvery_cons (k : Nat) (hk : 1 ≤ k) (l : List α) (hl : l ≠ []) :
    sliceEvery l k = l.take k :: sliceEvery (l.drop k) k := by
  rcases l with _ | ⟨a, rest⟩
  · exact absurd rfl hl
  · show sliceEveryGo (rest.length + 1) (a :: rest) k = _
    rw [sliceEveryGo]
    congr 1
    refine sliceEveryGo_congr k hk _ _ _ ?_ ?_ <;>
      simp only [List.length_drop, List.length_cons] <;> omega

theorem sliceEveryGo_join (k : Nat) (hk : 1 ≤ k) :
    ∀ fuel : Nat, ∀ l : List α, l.length ≤ fuel → (sliceEveryGo fuel l k).flatten = l := by
  intro fuel
  induction fuel with
  | zero =>
    intro l h1
    have : l = [] := List.length_eq_zero.mp (Nat.le_zero.mp h1)
    subst this; rfl
  | succ fuel ih =>
    intro l h1
    rcases l with _ | ⟨a, rest⟩
    · rfl
    · rw [sliceEveryGo, List.flatten_cons, ih]
      · exact List.take_append_drop _ _
      · simp only [List.length_drop, List.length_cons] at *; omega

theorem sliceEvery_join (k : Nat) (hk : 1 ≤ k) (l : List α) : (sliceEvery l k).flatten = l :=
  sliceEveryGo_join k hk _ l le_rfl

/-- Ceiling-division bookkeeping for the batch count. -/
theorem ceil_div_aux (k m : Nat) (hk : 0 < k) : (m - k + k - 1) / k = (m - 1) / k := by
  rcases le_or_lt m k with h | h
  · have e1 : m - k + k - 1 = k - 1 := by omega
    rw [e1, Nat.div_eq_of_lt (by omega), Nat.div_eq_of_lt (by omega)]
  · have e1 : m - k + k - 1 = m - 1 := by omega
    rw [e1]

theorem sliceEveryGo_length (k : Nat) (hk : 1 ≤ k) :
    ∀ fuel : Nat, ∀ l : List α, l.length ≤ fuel →
      (sliceEveryGo fuel l k).length = (l.length + k - 1) / k := by
  intro fuel
  induction fuel with
  | zero =>
    intro l h1
    have : l = [] := List.length_eq_zero.mp (Nat.le_zero.mp h1)
    subst this
    simp [sliceEveryGo, Nat.div_eq_of_lt (show k - 1 < k by omega)]
  | succ fuel ih =>
    intro l h1
    rcases l with _ | ⟨a, rest⟩
    · simp [sliceEveryGo, Nat.div_eq_of_lt (show k - 1 < k by omega)]
    · rw [sliceEveryGo, List.length_cons, ih _ (by simp only [List.length_drop, List.length_cons] at *; omega)]
      simp only [List.length_drop, List.length_cons]
      have e2 : rest.length + 1 + k - 1 = (rest.length + 1 - 1) + k := by omega
      rw [e2, Nat.add_div_right _ (by omega), ceil_div_aux k _ (by omega)]

theorem sliceEvery_length (k : Nat) (hk : 1 ≤ k) (l : List α) :
    (sliceEvery l k).length = (l.length + k - 1) / k :=
  sliceEveryGo_length k hk _ l le_rfl

theorem sliceEveryGo_mem_le (k : Nat) :
    ∀ fuel : Nat, ∀ l : List α, ∀ b ∈ sliceEveryGo fuel l k, b.length ≤ k := by
  intro fuel
  induction fuel with
  | zero => intro l b hb; simp [sliceEveryGo] at hb
  | succ fuel ih =>
    intro l b hb
    rcases l with _ | ⟨a, rest⟩
    · simp [sliceEveryGo] at hb
    · rw [sliceEveryGo] at hb
      rcases List.mem_cons.mp hb with h1 | h2
      · subst h1; simp [List.length_take]
      · exact ih _ b h2

theorem sliceEvery_mem_le (k : Nat) (l : List α) : ∀ b ∈ sliceEvery l k, b.length ≤ k :=
  sliceEveryGo_mem_le k _ l

theorem sliceEveryGo_mem_ne_nil (k : Nat) (hk : 1 ≤ k) :
    ∀ fuel : Nat, ∀ l : List α, ∀ b ∈ sliceEveryGo fuel l k, b ≠ [] := by
  intro fuel
  induction fuel with
  | zero => intro l b hb; simp [sliceEveryGo] at hb
  | succ fuel ih =>
    intro l b hb
    rcases l with _ | ⟨a, rest⟩
    · simp [sliceEveryGo] at hb
    · rw [sliceEveryGo] at hb
      rcases List.mem_cons.mp hb with h1 | h2
      · subst h1
        rcases k with _ | k
        · omega
        · simp [List.take]
      · exact ih _ b h2

theorem sliceEvery_mem_ne_nil (k : Nat) (hk : 1 ≤ k) (l : List α) :
    ∀ b ∈ sliceEvery l k, b ≠ [] :=
  sliceEveryGo_mem_ne_nil k hk _ l

/-! Trim facts. -/

theorem dropWhile_eq_self_of (p : α → Bool) (l : List α) (h : ∀ c ∈ l, p c = false) :
    l.dropWhile p = l := by
  cases l with
  | nil => rfl
  | cons c rest => rw [List.dropWhile_cons, h c (List.mem_cons_self _ _)]; simp

theorem trimC_no_ws (l : Text) (h : ∀ c ∈ l, isWs c = false) : trimC l = l := by
  unfold trimC
  rw [dropWhile_eq_self_of _ _ h, dropWhile_eq_self_of, List.reverse_reverse]
  intro c hc
  exact h c (List.mem_reverse.mp hc)

theorem trimC_all_ws (l : Text) (h : ∀ c ∈ l, isWs c = true) : trimC l = [] := by
  unfold trimC
  have h1 : l.dropWhile isWs = [] := List.dropWhile_eq_nil_iff.mpr h
  rw [h1]
  rfl

theorem trimC_nil : trimC ([] : Text) = [] := rfl

/-! The chunking loop: the real chunks are exactly the trimmed, non-empty
flushed buffers, and the flushed buffers concatenate back to the input. -/

theorem chunkFold_segs (n : Nat) :
    ∀ (parts : List Text) (st : ChunkState),
      ((parts.foldl (chunkStep n) st).segs).flatten ++ (parts.foldl (chunkStep n) st).cur
        = st.segs.flatten ++ (st.cur ++ parts.flatten) := by
  intro parts
  induction parts with
  | nil => intro st; simp
  | cons p ps ih =>
    intro st
    rw [List.foldl_cons, ih]
    unfold chunkStep
    split
    · simp [List.append_assoc]
    · simp [List.flatten_append, List.append_assoc]

theorem chunkFold_chunks (n : Nat) :
    ∀ (parts : List Text) (st : ChunkState),
      st.chunks = (st.segs.map trimC).filter (fun c => !c.isEmpty) →
      (parts.foldl (chunkStep n) st).chunks
        = (((parts.foldl (chunkStep n) st).segs).map trimC).filter (fun c => !c.isEmpty) := by
  intro parts
  induction parts with
  | nil => intro st h; exact h
  | cons p ps ih =>
    intro st h
    rw [List.foldl_cons]
    refine ih _ ?_
    unfold chunkStep
    split
    · exact h
    · show st.chunks ++ _ = ((st.segs ++ [st.cur]).map trimC).filter _
      rw [List.map_append, List.filter_append, ← h]
      congr 1
      cases hcur : (trimC st.cur).isEmpty <;> simp [List.filter_cons, hcur]

theorem chunkFlush_segs (st : ChunkState) :
    (chunkFlush st).segs.flatten = st.segs.flatten ++ st.cur := by
  simp [chunkFlush]

theorem chunkFlush_chunks (st : ChunkState)
    (h : st.chunks = (st.segs.map trimC).filter (fun c => !c.isEmpty)) :
    (chunkFlush st).chunks = ((chunkFlush st).segs.map trimC).filter (fun c => !c.isEmpty) := by
  unfold chunkFlush
  simp only
  rw [List.map_append, List.filter_append, ← h]
  congr 1
  cases hcur : (trimC st.cur).isEmpty <;> simp [List.filter_cons, hcur]

theorem smartChunkSegs_flatten (t : Text) (n : Nat) : (smartChunkSegs t n).flatten = t := by
  unfold smartChunkSegs
  cases ht : t.isEmpty
  · rw [if_neg (by simp [ht])]
    have h0 := chunkFold_segs n (jsSplitDelims t) ⟨[], [], []⟩
    have hflush := chunkFlush_segs ((jsSplitDelims t).foldl (chunkStep n) ⟨[], [], []⟩)
    rw [hflush, h0]
    simp [jsSplitDelims_join]
  · rw [if_pos (by simp [ht])]
    rw [List.isEmpty_iff] at ht
    simp [ht]

theorem smartChunkText_eq_trimmed_segs (t : Text) (n : Nat) (hn : 1 ≤ n) :
    smartChunkText t n =
      if (((smartChunkSegs t n).map trimC).filter (fun c => !c.isEmpty)).isEmpty && !t.isEmpty
      then sliceEvery t n
      else ((smartChunkSegs t n).map trimC).filter (fun c => !c.isEmpty) := by
  unfold smartChunkText smartChunkSegs
  cases ht : t.isEmpty
  case true =>
    have ht2 : t = [] := List.isEmpty_iff.mp ht
    subst ht2
    simp
  case false =>
    rw [if_neg (show ¬ (false = true) by simp), if_neg (show ¬ (false = true) by simp)]
    have hch :=
      chunkFlush_chunks ((jsSplitDelims t).foldl (chunkStep n) ⟨[], [], []⟩)
        (chunkFold_chunks n (jsSplitDelims t) ⟨[], [], []⟩ rfl)
    simp only [Bool.not_false, Bool.and_true, hch]
    cases hcond : (((chunkFlush ((jsSplitDelims t).foldl (chunkStep n)
        ⟨[], [], []⟩)).segs.map trimC).filter (fun c => !c.isEmpty)).isEmpty
    case false =>
      refine List.filter_eq_self.mpr ?_
      intro b hb
      have h2 := (List.mem_filter.mp hb).2
      simp only [Bool.not_eq_true', List.isEmpty_eq_false] at h2
      simpa using List.length_pos.mpr h2
    case true =>
      refine List.filter_eq_self.mpr ?_
      intro b hb
      have hne := sliceEvery_mem_ne_nil n hn t b hb
      simpa using List.length_pos.mpr hne

/-- C3: for every input text and chunk size of at least one character,
the ghost record of flushed buffers concatenates exactly back to the input
(no character loss, no duplication), the chunks returned by smartChunkText are
exactly those flushed buffers after trimming with the empty ones dropped
(or, when nothing survives trimming, the fixed-width slices), and the
fixed-width slices also concatenate exactly back to the input. -/
theorem c3_chunk_concat_reproduces_input (text : Text) (n : Nat) (hn : 1 ≤ n) :
    (smartChunkSegs text n).flatten = text ∧
    smartChunkText text n =
      (if (((smartChunkSegs text n).map trimC).filter (fun c => !c.isEmpty)).isEmpty
          && !text.isEmpty
       then sliceEvery text n
       else ((smartChunkSegs text n).map trimC).filter (fun c => !c.isEmpty)) ∧
    (sliceEvery text n).flatten = text :=
  ⟨smartChunkSegs_flatten text n, smartChunkText_eq_trimmed_segs text n hn,
    sliceEvery_join n hn text⟩

/-- Witness for C3 at a concrete input. -/
theorem c3_chunk_concat_reproduces_input_witness :
    (smartChunkSegs ['a', 'b', '.', ' ', 'c'] 3).flatten = ['a', 'b', '.', ' ', 'c'] ∧
    smartChunkText ['a', 'b', '.', ' ', 'c'] 3 =
      (if (((smartChunkSegs ['a', 'b', '.', ' ', 'c'] 3).map trimC).filter
            (fun c => !c.isEmpty)).isEmpty
          && !(['a', 'b', '.', ' ', 'c'] : Text).isEmpty
       then sliceEvery ['a', 'b', '.', ' ', 'c'] 3
       else ((smartChunkSegs ['a', 'b', '.', ' ', 'c'] 3).map trimC).filter
            (fun c => !c.isEmpty)) ∧
    (sliceEvery ['a', 'b', '.', ' ', 'c'] 3).flatten = ['a', 'b', '.', ' ', 'c'] :=
  c3_chunk_concat_reproduces_input ['a', 'b', '.', ' ', 'c'] 3 (by decide)

/-- C9 (implicit): every chunk returned by smartChunkText is non-empty, for
every input and every chunk size, so no synthesis call is issued for an empty
chunk. -/
theorem c9_chunks_nonempty (text : Text) (n : Nat) :
    ∀ c ∈ smartChunkText text n, 0 < c.length := by
  intro c hc
  unfold smartChunkText at hc
  split at hc
  · simp at hc
  · exact of_decide_eq_true (List.mem_filter.mp hc).2

/-- Witness for C9 at a concrete input. -/
theorem c9_chunks_nonempty_witness :
    ['h', 'i'] ∈ smartChunkText ['h', 'i'] 5 ∧ 0 < (['h', 'i'] : Text).length :=
  ⟨by decide, c9_chunks_nonempty ['h', 'i'] 5 ['h', 'i'] (by decide)⟩

/-! Delimiter-free inputs: when does the fixed-width fallback fire? -/

theorem smartChunkText_single_of_nondelim (t : Text) (n : Nat)
    (hne : t ≠ []) (hlen : n < t.length)
    (hd : ∀ c ∈ t, isDelim c = false) (hw : ∀ c ∈ t, isWs c = false) :
    smartChunkText t n = [t] := by
  have hsplit : jsSplitDelims t = [t] := jsSplitDelims_nondelim t hne hd
  have htrim : trimC t = t := trimC_no_ws t hw
  have hempf : t.isEmpty = false := by simpa [List.isEmpty_eq_false] using hne
  have hc1 : ¬ (([] : Text).length + t.length ≤ n) := by simp; omega
  have hpos : 0 < t.length := List.length_pos.mpr hne
  unfold smartChunkText
  rw [hempf, if_neg (show ¬ (false = true) by simp), hsplit]
  simp only [List.foldl_cons, List.foldl_nil, chunkStep, hc1, if_false, chunkFlush]
  simp [htrim, hempf, trimC_nil, List.isEmpty_eq_false.mpr hne, hpos]

theorem smartChunkText_fallback_all_ws (t : Text) (n : Nat) (hn : 1 ≤ n)
    (hlen : n < t.length)
    (hd : ∀ c ∈ t, isDelim c = false) (hw : ∀ c ∈ t, isWs c = true) :
    smartChunkText t n = sliceEvery t n := by
  have hne : t ≠ [] := by
    intro h
    rw [h] at hlen
    simp at hlen
  have hsplit : jsSplitDelims t = [t] := jsSplitDelims_nondelim t hne hd
  have htrim : trimC t = [] := trimC_all_ws t hw
  have hempf : t.isEmpty = false := by simpa [List.isEmpty_eq_false] using hne
  have hc1 : ¬ (([] : Text).length + t.length ≤ n) := by simp; omega
  unfold smartChunkText
  rw [hempf, if_neg (show ¬ (false = true) by simp), hsplit]
  simp only [List.foldl_cons, List.foldl_nil, chunkStep, hc1, if_false, chunkFlush, htrim,
    trimC_nil, List.isEmpty_nil, if_true, List.append_nil, List.nil_append,
    Bool.not_false, Bool.and_true]
  refine List.filter_eq_self.mpr ?_
  intro b hb
  simpa using List.length_pos.mpr (sliceEvery_mem_ne_nil n hn t b hb)

/-- C7 counterexample: a 3100-character delimiter-free input made of letters
does not produce two chunks of 2000 and 1100 characters; smartChunkText keeps
it as one oversized 3100-character chunk, because the fixed-width fallback only
fires when no trimmed chunk survived. -/
theorem c7_claim_counterexample :
    ¬ ((smartChunkText (List.replicate 3100 'a') 2000).map List.length = [2000, 1100]) := by
  have key : smartChunkText (List.replicate 3100 'a') 2000 = [List.replicate 3100 'a'] :=
    smartChunkText_single_of_nondelim _ _
      (List.length_pos.mp (by rw [List.length_replicate]; omega))
      (by rw [List.length_replicate]; omega)
      (fun c hc => by rw [List.eq_of_mem_replicate hc]; decide)
      (fun c hc => by rw [List.eq_of_mem_replicate hc]; decide)
  rw [key]
  simp only [List.map_cons, List.map_nil, List.length_replicate]
  decide

/-- C7 amended: for a 3100-character delimiter-free input, the fixed-width
fallback producing chunks of lengths 2000 and 1100 fires exactly when no
trimmed chunk survives (for example a whitespace-only input); a delimiter-free
input of non-whitespace characters instead yields a single chunk of length
3100.  The variant workers that always slice at a fixed width of 2000 do
produce the 2000/1100 split for every 3100-character input. -/
theorem c7_chunker_fallback_amended :
    smartChunkText (List.replicate 3100 ' ') 2000 = sliceEvery (List.replicate 3100 ' ') 2000 ∧
    (sliceEvery (List.replicate 3100 ' ') 2000).map List.length = [2000, 1100] ∧
    (smartChunkText (List.replicate 3100 'a') 2000).map List.length = [3100] := by
  have hs : sliceEvery (List.replicate 3100 ' ') 2000
      = [List.replicate 2000 ' ', List.replicate 1100 ' '] := by
    rw [sliceEvery_cons 2000 (by omega) _ (List.length_pos.mp (by rw [List.length_replicate]; omega)),
      List.take_replicate, List.drop_replicate]
    rw [show min 2000 3100 = 2000 by decide, show 3100 - 2000 = 1100 by decide]
    rw [sliceEvery_cons 2000 (by omega) _ (List.length_pos.mp (by rw [List.length_replicate]; omega)),
      List.take_replicate, List.drop_replicate]
    rw [show min 2000 1100 = 1100 by decide, show 1100 - 2000 = 0 by decide]
    rfl
  refine ⟨?_, ?_, ?_⟩
  · exact smartChunkText_fallback_all_ws _ _ (by omega)
      (by rw [List.length_replicate]; omega)
      (fun c hc => by rw [List.eq_of_mem_replicate hc]; decide)
      (fun c hc => by rw [List.eq_of_mem_replicate hc]; decide)
  · rw [hs]
    simp only [List.map_cons, List.map_nil, List.length_replicate]
  · have key : smartChunkText (List.replicate 3100 'a') 2000 = [List.replicate 3100 'a'] :=
      smartChunkText_single_of_nondelim _ _
        (List.length_pos.mp (by rw [List.length_replicate]; omega))
        (by rw [List.length_replicate]; omega)
        (fun c hc => by rw [List.eq_of_mem_replicate hc]; decide)
        (fun c hc => by rw [List.eq_of_mem_replicate hc]; decide)
    rw [key]
    simp only [List.map_cons, List.map_nil, List.length_replicate]

/-! The whitespace-normalization tail of cleanText, in its three source
variants. -/

/-- JavaScript `replace(/(\r\n|\n|\r)/gm, repl)`: each line-break occurrence
(a CRLF pair counting as one occurrence, preferred by the alternation order)
is replaced by `repl`. -/
def replaceLineBreaks (repl : Text) : Text → Text
  | [] => []
  | '\r' :: '\n' :: rest => repl ++ replaceLineBreaks repl rest
  | c :: rest =>
    if c == '\n' || c == '\r' then repl ++ replaceLineBreaks repl rest
    else c :: replaceLineBreaks repl rest

/-- JavaScript `replace(/X+/g, " ")` for a character class decided by `p`:
every maximal run of characters satisfying `p` becomes one space.  The run
emits its single space at its last character; earlier characters of the run
are skipped. -/
def collapseRunsSp (p : Char → Bool) : Text → Text
  | [] => []
  | c :: rest =>
    if p c then
      match rest with
      | d :: _ => if p d then collapseRunsSp p rest else ' ' :: collapseRunsSp p rest
      | [] => [' ']
    else c :: collapseRunsSp p rest

/-- Whitespace stages 5-6 of cleanText in src/_worker.js (lines 319-325):
with line-break removal enabled the text first loses every whitespace run
outright (`replace(/\s+/g, "")`, i.e. every whitespace character is deleted);
in both cases the result is then trimmed. -/
def cleanTextWsWorker (removeLineBreaks : Bool) (t : Text) : Text :=
  let t1 := if removeLineBreaks then t.filter (fun c => !(isWs c)) else t
  trimC t1

/-- Whitespace tail of cleanText in src/unnamed/part_001 (lines 673-681):
enabled, line breaks are deleted, then the text is trimmed and whitespace runs
collapse to one space; disabled, the text is trimmed and only space/tab runs
collapse. -/
def cleanTextWsA (removeLineBreaks : Bool) (t : Text) : Text :=
  if removeLineBreaks then collapseRunsSp isWs (trimC (replaceLineBreaks [] t))
  else collapseRunsSp isHWs (trimC t)

/-- Whitespace tail of cleanText in src/unnamed/part_000 (lines 366-373):
identical to the part_001 variant except that each line break is replaced by a
space instead of being deleted. -/
def cleanTextWsB (removeLineBreaks : Bool) (t : Text) : Text :=
  if removeLineBreaks then collapseRunsSp isWs (trimC (replaceLineBreaks [' '] t))
  else collapseRunsSp isHWs (trimC t)

/-- The behaviour the spec describes for the enabled case, written from the
spec's words for comparison: delete all line breaks (not replacing them by a
space), collapse every whitespace run to a single space, and trim the final
result. -/
def claimedWsEnabled (t : Text) : Text :=
  trimC (collapseRunsSp isWs (replaceLineBreaks [] t))

/-- The behaviour the spec describes for the disabled case: collapse only
horizontal-whitespace runs, preserve line breaks, trim the final result. -/
def claimedWsDisabled (t : Text) : Text :=
  trimC (collapseRunsSp isHWs t)

/-- A text with no leading and no trailing whitespace. -/
def NoEdgeWs (l : Text) : Prop :=
  (∀ c, l.head? = some c → isWs c = false) ∧ (∀ c, l.getLast? = some c → isWs c = false)

/-! Facts about collapseRunsSp. -/

theorem collapseRunsSp_nil (p : Char → Bool) : collapseRunsSp p [] = [] := rfl

theorem collapseRunsSp_cons_not (p : Char → Bool) (c : Char) (rest : Text)
    (h : p c = false) : collapseRunsSp p (c :: rest) = c :: collapseRunsSp p rest := by
  simp [collapseRunsSp, h]

theorem collapseRunsSp_singleton_p (p : Char → Bool) (c : Char) (hc : p c = true) :
    collapseRunsSp p [c] = [' '] := by
  simp [collapseRunsSp, hc]

theorem collapseRunsSp_cons_cons_p (p : Char → Bool) (c d : Char) (rest2 : Text)
    (hc : p c = true) (hd : p d = true) :
    collapseRunsSp p (c :: d :: rest2) = collapseRunsSp p (d :: rest2) := by
  rw [collapseRunsSp.eq_def]
  simp [hc, hd]

theorem collapseRunsSp_cons_cons_pn (p : Char → Bool) (c d : Char) (rest2 : Text)
    (hc : p c = true) (hd : p d = false) :
    collapseRunsSp p (c :: d :: rest2) = ' ' :: collapseRunsSp p (d :: rest2) := by
  rw [collapseRunsSp.eq_def]
  simp [hc, hd]

theorem collapseRunsSp_ne_nil (p : Char → Bool) :
    ∀ l : Text, l ≠ [] → collapseRunsSp p l ≠ [] := by
  intro l
  induction l with
  | nil => intro h; exact absurd rfl h
  | cons c rest ih =>
    intro _
    by_cases hc : p c = true
    · rcases rest with _ | ⟨d, rest2⟩
      · rw [collapseRunsSp_singleton_p p c hc]; simp
      · by_cases hd : p d = true
        · rw [collapseRunsSp_cons_cons_p p c d rest2 hc hd]; exact ih (by simp)
        · have hd2 : p d = false := by simpa using hd
          rw [collapseRunsSp_cons_cons_pn p c d rest2 hc hd2]; simp
    · have hc2 : p c = false := by simpa using hc
      rw [collapseRunsSp_cons_not p c rest hc2]; simp

theorem mem_collapseRunsSp (p : Char → Bool) :
    ∀ l : Text, ∀ c ∈ collapseRunsSp p l, c = ' ' ∨ c ∈ l := by
  intro l
  induction l with
  | nil => intro c hc; simp [collapseRunsSp] at hc
  | cons a rest ih =>
    intro c hc
    by_cases ha : p a = true
    · rcases rest with _ | ⟨d, rest2⟩
      · rw [collapseRunsSp_singleton_p p a ha] at hc
        simp at hc
        simp [hc]
      · by_cases hd : p d = true
        · rw [collapseRunsSp_cons_cons_p p a d rest2 ha hd] at hc
          rcases ih c hc with h | h
          · exact Or.inl h
          · exact Or.inr (List.mem_cons_of_mem _ h)
        · have hd2 : p d = false := by simpa using hd
          rw [collapseRunsSp_cons_cons_pn p a d rest2 ha hd2] at hc
          rcases List.mem_cons.mp hc with h | h
          · exact Or.inl h
          · rcases ih c h with h2 | h2
            · exact Or.inl h2
            · exact Or.inr (List.mem_cons_of_mem _ h2)
    · have ha2 : p a = false := by simpa using ha
      rw [collapseRunsSp_cons_not p a rest ha2] at hc
      rcases List.mem_cons.mp hc with h | h
      · exact Or.inr (h ▸ List.mem_cons_self _ _)
      · rcases ih c h with h2 | h2
        · exact Or.inl h2
        · exact Or.inr (List.mem_cons_of_mem _ h2)

theorem collapseRunsSp_append_right (p : Char → Bool) (x : Text)
    (hx : x = [] ∨ ∃ d t2, x = d :: t2 ∧ p d = false) :
    ∀ w : Text, collapseRunsSp p (w ++ x) = collapseRunsSp p w ++ collapseRunsSp p x := by
  intro w
  induction w with
  | nil => rw [List.nil_append, collapseRunsSp_nil, List.nil_append]
  | cons c w ih =>
    by_cases hc : p c = true
    · rcases w with _ | ⟨e, w2⟩
      · rcases hx with h | ⟨d, t2, hx2, hd⟩
        · subst h
          simp [collapseRunsSp_nil]
        · subst hx2
          show collapseRunsSp p (c :: d :: t2) = collapseRunsSp p [c] ++ collapseRunsSp p (d :: t2)
          rw [collapseRunsSp_cons_cons_pn p c d t2 hc hd, collapseRunsSp_singleton_p p c hc]
          rfl
      · by_cases he : p e = true
        · show collapseRunsSp p (c :: e :: (w2 ++ x)) = _
          rw [collapseRunsSp_cons_cons_p p c e (w2 ++ x) hc he,
            collapseRunsSp_cons_cons_p p c e w2 hc he]
          exact ih
        · have he2 : p e = false := by simpa using he
          rw [List.cons_append] at ih
          show collapseRunsSp p (c :: e :: (w2 ++ x)) = _
          rw [collapseRunsSp_cons_cons_pn p c e (w2 ++ x) hc he2,
            collapseRunsSp_cons_cons_pn p c e w2 hc he2, ih]
          rfl
    · have hc2 : p c = false := by simpa using hc
      rw [List.cons_append, collapseRunsSp_cons_not p c _ hc2,
        collapseRunsSp_cons_not p c _ hc2, ih, List.cons_append]

theorem collapseRunsSp_append_left (p : Char → Bool) (w : Text) :
    ∀ x : Text, (∀ d, x.getLast? = some d → p d = false) →
      collapseRunsSp p (x ++ w) = collapseRunsSp p x ++ collapseRunsSp p w := by
  intro x
  induction x with
  | nil => intro _; rw [List.nil_append, collapseRunsSp_nil, List.nil_append]
  | cons c x2 ih =>
    intro hlast
    by_cases hc : p c = true
    · rcases x2 with _ | ⟨e, x3⟩
      · have hcontr := hlast c (by simp)
        rw [hc] at hcontr
        simp at hcontr
      · have hlast2 : ∀ d, (e :: x3).getLast? = some d → p d = false := by
          intro d hd
          exact hlast d (by rw [List.getLast?_cons_cons]; exact hd)
        by_cases he : p e = true
        · show collapseRunsSp p (c :: e :: (x3 ++ w)) = _
          rw [collapseRunsSp_cons_cons_p p c e (x3 ++ w) hc he,
            collapseRunsSp_cons_cons_p p c e x3 hc he]
          have h2 := ih hlast2
          rw [List.cons_append] at h2
          exact h2
        · have he2 : p e = false := by simpa using he
          show collapseRunsSp p (c :: e :: (x3 ++ w)) = _
          rw [collapseRunsSp_cons_cons_pn p c e (x3 ++ w) hc he2,
            collapseRunsSp_cons_cons_pn p c e x3 hc he2]
          have h2 := ih hlast2
          rw [List.cons_append] at h2
          rw [h2]
          rfl
    · have hc2 : p c = false := by simpa using hc
      have hlast2 : ∀ d, x2.getLast? = some d → p d = false := by
        intro d hd
        refine hlast d ?_
        rcases x2 with _ | ⟨e, x3⟩
        · simp at hd
        · rw [List.getLast?_cons_cons]; exact hd
      rw [List.cons_append, collapseRunsSp_cons_not p c _ hc2,
        collapseRunsSp_cons_not p c _ hc2, ih hlast2, List.cons_append]

theorem collapseRunsSp_head_not (p : Char → Bool) (a : Char) (rest : Text)
    (ha : p a = false) : (collapseRunsSp p (a :: rest)).head? = some a := by
  rw [collapseRunsSp_cons_not p a rest ha]
  rfl

theorem collapseRunsSp_getLast_not (p : Char → Bool) (l : Text) (d : Char)
    (hlast : l.getLast? = some d) (hdnp : p d = false) :
    (collapseRunsSp p l).getLast? = some d := by
  have hne : l ≠ [] := by
    intro h
    rw [h] at hlast
    simp at hlast
  have hsplit : l.dropLast ++ [d] = l := by
    have h2 := List.dropLast_append_getLast hne
    have h3 : l.getLast hne = d := by
      have h4 := List.getLast?_eq_getLast l hne
      rw [h4] at hlast
      exact Option.some_inj.mp hlast
    rw [h3] at h2
    exact h2
  conv_lhs => rw [← hsplit]
  rw [collapseRunsSp_append_right p [d] (Or.inr ⟨d, [], rfl, hdnp⟩) l.dropLast,
    collapseRunsSp_cons_not p d [] hdnp, collapseRunsSp_nil]
  simp

/-! Trim decomposition and padding. -/

theorem dropWhile_append_of_all (p : α → Bool) (w y : List α) (h : ∀ c ∈ w, p c = true) :
    (w ++ y).dropWhile p = y.dropWhile p := by
  induction w with
  | nil => rfl
  | cons c w2 ih =>
    rw [List.cons_append, List.dropWhile_cons, h c (List.mem_cons_self _ _)]
    simp only [if_true]
    exact ih (fun d hd => h d (List.mem_cons_of_mem _ hd))

theorem dropWhile_head_not (p : α → Bool) :
    ∀ l : List α, ∀ c, (l.dropWhile p).head? = some c → p c = false := by
  intro l
  induction l with
  | nil => intro c hc; simp at hc
  | cons a rest ih =>
    intro c hc
    rw [List.dropWhile_cons] at hc
    by_cases ha : p a = true
    · rw [ha] at hc
      simp only [if_true] at hc
      exact ih c hc
    · have ha2 : p a = false := by simpa using ha
      rw [ha2] at hc
      simp at hc
      rw [← hc]
      exact ha2

theorem dropWhile_eq_trim_append (l : Text) :
    l.dropWhile isWs = trimC l ++ ((l.dropWhile isWs).reverse.takeWhile isWs).reverse := by
  conv_lhs => rw [← List.reverse_reverse (l.dropWhile isWs)]
  conv_lhs =>
    rw [← List.takeWhile_append_dropWhile (p := isWs) (l := (l.dropWhile isWs).reverse)]
  rw [List.reverse_append]
  rfl

theorem trim_decomp (l : Text) :
    ∃ w1 w2, l = w1 ++ trimC l ++ w2 ∧ (∀ c ∈ w1, isWs c = true) ∧ (∀ c ∈ w2, isWs c = true) := by
  refine ⟨l.takeWhile isWs, ((l.dropWhile isWs).reverse.takeWhile isWs).reverse, ?_, ?_, ?_⟩
  · conv_lhs => rw [← List.takeWhile_append_dropWhile (p := isWs) (l := l)]
    rw [List.append_assoc]
    congr 1
    exact dropWhile_eq_trim_append l
  · exact fun c hc => List.mem_takeWhile_imp hc
  · exact fun c hc => List.mem_takeWhile_imp (List.mem_reverse.mp hc)

theorem trimC_noEdgeWs (l : Text) : NoEdgeWs (trimC l) := by
  constructor
  · intro c hc
    rcases htl : trimC l with _ | ⟨a, t⟩
    · rw [htl] at hc; simp at hc
    · rw [htl] at hc
      simp at hc
      subst hc
      have hsplit := dropWhile_eq_trim_append l
      rw [htl] at hsplit
      have hh : (l.dropWhile isWs).head? = some a := by rw [hsplit]; rfl
      exact dropWhile_head_not isWs l a hh
  · intro c hc
    have hc2 : ((((l.dropWhile isWs).reverse.dropWhile isWs)).reverse).getLast? = some c := hc
    rw [List.getLast?_reverse] at hc2
    exact dropWhile_head_not isWs _ c hc2

theorem trimC_ws_pad (w1 x w2 : Text) (h1 : ∀ c ∈ w1, isWs c = true)
    (h2 : ∀ c ∈ w2, isWs c = true) (hx : NoEdgeWs x) (hne : x ≠ []) :
    trimC (w1 ++ x ++ w2) = x := by
  obtain ⟨a, t, rfl⟩ : ∃ a t, x = a :: t := by
    rcases x with _ | ⟨a, t⟩
    · exact absurd rfl hne
    · exact ⟨a, t, rfl⟩
  have ha : isWs a = false := hx.1 a rfl
  unfold trimC
  rw [List.append_assoc, dropWhile_append_of_all isWs w1 _ h1,
    show (a :: t) ++ w2 = a :: (t ++ w2) from rfl, List.dropWhile_cons, ha]
  rw [if_neg (by simp)]
  rw [show a :: (t ++ w2) = (a :: t) ++ w2 from rfl, List.reverse_append,
    dropWhile_append_of_all isWs w2.reverse _ (fun c hc => h2 c (List.mem_reverse.mp hc))]
  have hlast : ∀ c, ((a :: t).reverse).head? = some c → isWs c = false := by
    intro c hcc
    refine hx.2 c ?_
    rw [← List.head?_reverse]
    exact hcc
  rcases hr : (a :: t).reverse with _ | ⟨b, rb⟩
  · have : (a :: t).reverse ≠ [] := by simp
    exact absurd hr this
  · have hb : isWs b = false := hlast b (by rw [hr]; rfl)
    rw [List.dropWhile_cons, hb, if_neg (by simp), ← hr, List.reverse_reverse]

/-- Collapsing runs commutes with trimming whenever the collapsed class is a
subclass of whitespace: the source trims before collapsing, the spec describes
collapsing before trimming, and both give the same text. -/
theorem collapseRunsSp_trimC_comm (p : Char → Bool)
    (hps : ∀ c, p c = true → isWs c = true) (l : Text) :
    collapseRunsSp p (trimC l) = trimC (collapseRunsSp p l) := by
  obtain ⟨w1, w2, hdec, hw1, hw2⟩ := trim_decomp l
  have hedge : NoEdgeWs (trimC l) := trimC_noEdgeWs l
  by_cases hm : trimC l = []
  · rw [hm, collapseRunsSp_nil]
    have hall : ∀ c ∈ l, isWs c = true := by
      intro c hc
      rw [hdec, hm] at hc
      simp only [List.append_nil, List.nil_append] at hc
      rcases List.mem_append.mp hc with h | h
      · exact hw1 c h
      · exact hw2 c h
    have hall2 : ∀ c ∈ collapseRunsSp p l, isWs c = true := by
      intro c hc
      rcases mem_collapseRunsSp p l c hc with h | h
      · rw [h]; decide
      · exact hall c h
    rw [trimC_all_ws _ hall2]
  · obtain ⟨a, t, hat⟩ : ∃ a t, trimC l = a :: t := by
      rcases hmm : trimC l with _ | ⟨a, t⟩
      · exact absurd hmm hm
      · exact ⟨a, t, rfl⟩
    have hheadnp : p a = false := by
      have hwa := hedge.1 a (by rw [hat]; rfl)
      by_cases hpa : p a = true
      · rw [hps a hpa] at hwa; simp at hwa
      · simpa using hpa
    have hlastnp : ∀ d, (trimC l).getLast? = some d → p d = false := by
      intro d hd
      have hwd := hedge.2 d hd
      by_cases hpd : p d = true
      · rw [hps d hpd] at hwd; simp at hwd
      · simpa using hpd
    obtain ⟨d, hd⟩ : ∃ d, (trimC l).getLast? = some d := by
      rw [hat]
      exact ⟨(a :: t).getLast (by simp), List.getLast?_eq_getLast _ _⟩
    have e1 : collapseRunsSp p l
        = collapseRunsSp p w1 ++ (collapseRunsSp p (trimC l) ++ collapseRunsSp p w2) := by
      conv_lhs => rw [hdec]
      rw [List.append_assoc,
        collapseRunsSp_append_right p (trimC l ++ w2)
          (Or.inr ⟨a, t ++ w2, by rw [hat]; rfl, hheadnp⟩) w1]
      congr 1
      exact collapseRunsSp_append_left p w2 (trimC l) hlastnp
    rw [e1, ← List.append_assoc]
    refine (trimC_ws_pad _ _ _ ?_ ?_ ?_ ?_).symm
    · intro c hc
      rcases mem_collapseRunsSp p w1 c hc with h | h
      · rw [h]; decide
      · exact hw1 c h
    · intro c hc
      rcases mem_collapseRunsSp p w2 c hc with h | h
      · rw [h]; decide
      · exact hw2 c h
    · constructor
      · intro c hc
        rw [hat] at hc
        rw [collapseRunsSp_head_not p a t hheadnp] at hc
        have hca : c = a := by simpa using hc.symm
        subst hca
        exact hedge.1 c (by rw [hat]; rfl)
      · intro c hc
        rw [collapseRunsSp_getLast_not p (trimC l) d hd (hlastnp d hd)] at hc
        have hcd : c = d := by simpa using hc.symm
        subst hcd
        exact hedge.2 c hd
    · exact collapseRunsSp_ne_nil p _ hm

/-- C6 counterexample: the whitespace stage of cleanText in src/_worker.js
deletes the space between words outright when line-break removal is enabled
(giving no space where the claim demands a single collapsed space), and the
part_000 variant replaces a line break by a space instead of deleting it. -/
theorem c6_claim_counterexample :
    cleanTextWsWorker true ['a', ' ', 'b'] ≠ claimedWsEnabled ['a', ' ', 'b'] ∧
    cleanTextWsB true ['a', '\n', 'b'] ≠ claimedWsEnabled ['a', '\n', 'b'] := by
  constructor <;> decide

/-- C6 amended: in src/_worker.js, enabling line-break removal deletes every
whitespace character (no run collapses to a space), and disabling it performs
no collapsing at all, only trimming.  The behaviour the claim describes (line
breaks deleted then whitespace runs collapsed to one space when enabled; only
space/tab runs collapsed when disabled) is exactly the part_001 variant, whose
trim-then-collapse order is shown equal to the claim's collapse-then-trim
order.  The part_000 variant replaces each line break by a space before
collapsing.  In all variants the final result carries no leading or trailing
whitespace. -/
theorem c6_whitespace_stage_amended (t : Text) :
    cleanTextWsWorker true t = t.filter (fun c => !(isWs c)) ∧
    cleanTextWsWorker false t = trimC t ∧
    cleanTextWsA true t = claimedWsEnabled t ∧
    cleanTextWsA false t = claimedWsDisabled t ∧
    cleanTextWsB true t = trimC (collapseRunsSp isWs (replaceLineBreaks [' '] t)) ∧
    NoEdgeWs (cleanTextWsWorker true t) ∧ NoEdgeWs (cleanTextWsWorker false t) ∧
    NoEdgeWs (cleanTextWsA true t) ∧ NoEdgeWs (cleanTextWsA false t) ∧
    NoEdgeWs (cleanTextWsB true t) := by
  have hsub : ∀ c, isHWs c = true → isWs c = true := by
    intro c h
    simp only [isHWs, Bool.or_eq_true, beq_iff_eq] at h
    rcases h with h | h <;> subst h <;> decide
  have ha : cleanTextWsWorker true t = t.filter (fun c => !(isWs c)) := by
    show trimC (t.filter fun c => !(isWs c)) = _
    refine trimC_no_ws _ ?_
    intro c hc
    have h2 := (List.mem_filter.mp hc).2
    simpa using h2
  have hc3 : cleanTextWsA true t = claimedWsEnabled t :=
    collapseRunsSp_trimC_comm isWs (fun _ h => h) _
  have hc4 : cleanTextWsA false t = claimedWsDisabled t :=
    collapseRunsSp_trimC_comm isHWs hsub t
  have hc5 : cleanTextWsB true t = trimC (collapseRunsSp isWs (replaceLineBreaks [' '] t)) :=
    collapseRunsSp_trimC_comm isWs (fun _ h => h) _
  refine ⟨ha, rfl, hc3, hc4, hc5, ?_, ?_, ?_, ?_, ?_⟩
  · exact trimC_noEdgeWs _
  · exact trimC_noEdgeWs t
  · rw [hc3]; exact trimC_noEdgeWs _
  · rw [hc4]; exact trimC_noEdgeWs _
  · rw [hc5]; exact trimC_noEdgeWs _

/-! The batch scheduler and stream assembler (pipeChunksToStream / getVoice,
src/_worker.js lines 127-177).  Per-chunk synthesis (getAudioChunk) is an
oracle from chunk text to either audio bytes or an upstream error. -/

/-- Promise.all over settled per-task outcomes: resolves to the values in
input-array order, rejects when any task rejects.  Which rejection wins in the
source depends on completion timing; whether it rejects does not, and the model
keeps the first in array order. -/
def promiseAll (ts : List (Except ε α)) : Except ε (List α) :=
  match ts with
  | [] => .ok []
  | t :: rest =>
    match t, promiseAll rest with
    | .ok a, .ok as => .ok (a :: as)
    | .error e, _ => .error e
    | .ok _, .error e => .error e

/-- Response model: audio bytes with content type audio/mpeg, or the JSON
error response built by errorResponse(message, status, code). -/
inductive TTSResponse where
  | audio (bytes : List Nat)
  | error (status : Nat) (message : String)
deriving DecidableEq

/-- Batch loop of getVoice (src/_worker.js lines 164-170): for each slice of
`concurrency` chunks, await the whole batch and append its blobs to
allAudioBlobs; the first failing batch rejects the whole loop. -/
def collectBatches (synth : Text → Except String (List Nat)) :
    List (List Text) → Except String (List (List Nat))
  | [] => .ok []
  | b :: rest =>
    match promiseAll (b.map synth) with
    | .error e => .error e
    | .ok blobs =>
      match collectBatches synth rest with
      | .error e => .error e
      | .ok more => .ok (blobs ++ more)

/-- getVoice (src/_worker.js lines 160-177): run the batches, concatenate all
blobs into one audio payload, or catch the error and answer
errorResponse(message, 500, tts_generation_error). -/
def getVoice (textChunks : List Text) (concurrency : Nat)
    (synth : Text → Except String (List Nat)) : TTSResponse :=
  match collectBatches synth (sliceEvery textChunks concurrency) with
  | .ok allAudioBlobs => .audio allAudioBlobs.flatten
  | .error e => .error 500 e

/-- Outcome of the streaming writer: the bytes flushed (in write order) and
the abort reason if the stream was aborted. -/
structure StreamResult where
  written : List Nat
  aborted : Option String
deriving DecidableEq

/-- Batch loop of pipeChunksToStream (src/_worker.js lines 142-150): await
each batch, write its blobs to the writer in array order, abort on the first
failure keeping what was already flushed. -/
def pipeBatches (synth : Text → Except String (List Nat)) :
    List (List Text) → StreamResult
  | [] => ⟨[], none⟩
  | b :: rest =>
    match promiseAll (b.map synth) with
    | .error e => ⟨[], some e⟩
    | .ok blobs =>
      let r := pipeBatches synth rest
      ⟨blobs.flatten ++ r.written, r.aborted⟩

/-- pipeChunksToStream (src/_worker.js lines 139-158). -/
def pipeChunksToStream (chunks : List Text) (concurrency : Nat)
    (synth : Text → Except String (List Nat)) : StreamResult :=
  pipeBatches synth (sliceEvery chunks concurrency)

/-! A refined model of Promise.all that makes completion timing explicit, for
the ordering claim: each entry of `order` is the completion event of the task
with that index, writing its value into that task's slot; the promise resolves
from the slots in index order, exactly the input-array correspondence the
runtime guarantees. -/

/-- Sequence a list of optional values (all-or-nothing). -/
def seqOption : List (Option α) → Option (List α)
  | [] => some []
  | o :: os =>
    match o, seqOption os with
    | some a, some as => some (a :: as)
    | _, _ => none

/-- Read the result array back out of the completion events: slot `i` holds
the value delivered by the completion event of task `i`. -/
def assembleSlots (n : Nat) (events : List (Nat × α)) : Option (List α) :=
  seqOption ((List.range n).map (fun i => (events.find? (fun ev => ev.fst == i)).map Prod.snd))

/-- Promise.all under an explicit completion order. -/
def promiseAllTimed (tasks : List α) (order : List Nat) : Option (List α) :=
  assembleSlots tasks.length (order.filterMap (fun i => (tasks.get? i).map (fun v => (i, v))))

/-- Streaming batch loop under explicit per-batch completion orders. -/
def pipeBatchesTimed (synth : Text → List Nat) :
    List (List Text) → List (List Nat) → Option (List Nat)
  | [], _ => some []
  | _ :: _, [] => none
  | b :: rest, o :: os =>
    match promiseAllTimed (b.map synth) o with
    | none => none
    | some blobs =>
      match pipeBatchesTimed synth rest os with
      | none => none
      | some more => some (blobs.flatten ++ more)

/-- pipeChunksToStream under explicit completion orders. -/
def pipeChunksToStreamTimed (chunks : List Text) (concurrency : Nat)
    (synth : Text → List Nat) (orders : List (List Nat)) : Option (List Nat) :=
  pipeBatchesTimed synth (sliceEvery chunks concurrency) orders

/-- Buffered batch loop under explicit completion orders: collect the blobs
across batches, concatenating only at the end (new Blob(allAudioBlobs)). -/
def collectBatchesTimed (synth : Text → List Nat) :
    List (List Text) → List (List Nat) → Option (List (List Nat))
  | [], _ => some []
  | _ :: _, [] => none
  | b :: rest, o :: os =>
    match promiseAllTimed (b.map synth) o with
    | none => none
    | some blobs =>
      match collectBatchesTimed synth rest os with
      | none => none
      | some more => some (blobs ++ more)

/-- getVoice under explicit completion orders. -/
def getVoiceTimed (textChunks : List Text) (concurrency : Nat)
    (synth : Text → List Nat) (orders : List (List Nat)) : Option (List Nat) :=
  (collectBatchesTimed synth (sliceEvery textChunks concurrency) orders).map List.flatten

theorem seqOption_cons_some (a : α) (os : List (Option α)) (as : List α)
    (h : seqOption os = some as) : seqOption (some a :: os) = some (a :: as) := by
  show (match some a, seqOption os with
    | some a, some as => some (a :: as)
    | _, _ => none) = some (a :: as)
  rw [h]

theorem seqOption_map_get (l : List α) :
    seqOption ((List.range l.length).map (fun i => l.get? i)) = some l := by
  induction l with
  | nil => rfl
  | cons a rest ih =>
    rw [List.length_cons, List.range_succ_eq_map, List.map_cons, List.map_map]
    show seqOption (some a :: (List.range rest.length).map (fun i => rest.get? i)) = some (a :: rest)
    exact seqOption_cons_some a _ rest ih

theorem find?_completion_events (tasks : List α) (order : List Nat)
    (hperm : order.Perm (List.range tasks.length)) (i : Nat) (hi : i < tasks.length) :
    ((order.filterMap (fun j => (tasks.get? j).map (fun v => (j, v)))).find?
        (fun ev => ev.fst == i)).map Prod.snd = tasks.get? i := by
  obtain ⟨v, hv⟩ : ∃ v, tasks.get? i = some v := by
    rw [List.get?_eq_get hi]
    exact ⟨_, rfl⟩
  have himem : i ∈ order := hperm.mem_iff.mpr (List.mem_range.mpr hi)
  have hev : (i, v) ∈ order.filterMap (fun j => (tasks.get? j).map (fun v => (j, v))) := by
    refine List.mem_filterMap.mpr ⟨i, himem, ?_⟩
    rw [hv]
    rfl
  have hsome : ((order.filterMap (fun j => (tasks.get? j).map (fun v => (j, v)))).find?
      (fun ev => ev.fst == i)).isSome := by
    rw [List.find?_isSome]
    exact ⟨(i, v), hev, by simp⟩
  obtain ⟨ev, hfind⟩ := Option.isSome_iff_exists.mp hsome
  have hmem2 := List.mem_of_find?_eq_some hfind
  have hfst : ev.fst = i := by simpa using List.find?_some hfind
  obtain ⟨j, _, hmap⟩ := List.mem_filterMap.mp hmem2
  rcases hts : tasks.get? j with _ | v2
  · rw [hts] at hmap
    simp at hmap
  · rw [hts] at hmap
    have hev2 : ev = (j, v2) := by simpa using hmap.symm
    subst hev2
    have hji : j = i := by simpa using hfst
    subst hji
    rw [hfind, hts]
    rfl

theorem promiseAllTimed_perm (tasks : List α) (order : List Nat)
    (hperm : order.Perm (List.range tasks.length)) :
    promiseAllTimed tasks order = some tasks := by
  unfold promiseAllTimed assembleSlots
  have hcong : (List.range tasks.length).map
        (fun i => ((order.filterMap (fun j => (tasks.get? j).map (fun v => (j, v)))).find?
          (fun ev => ev.fst == i)).map Prod.snd)
      = (List.range tasks.length).map (fun i => tasks.get? i) := by
    refine List.map_congr_left ?_
    intro i hi
    exact find?_completion_events tasks order hperm i (List.mem_range.mp hi)
  rw [hcong, seqOption_map_get]

theorem pipeBatchesTimed_eq (synth : Text → List Nat) :
    ∀ (bs : List (List Text)) (orders : List (List Nat)),
      orders.length = bs.length →
      (∀ pr ∈ bs.zip orders, List.Perm pr.2 (List.range pr.1.length)) →
      pipeBatchesTimed synth bs orders
        = some ((bs.map (fun b => (b.map synth).flatten)).flatten) := by
  intro bs
  induction bs with
  | nil => intro orders _ _; rfl
  | cons b rest ih =>
    intro orders h1 h2
    rcases orders with _ | ⟨o, os⟩
    · simp at h1
    · have hp : List.Perm o (List.range (b.map synth).length) := by
        rw [List.length_map]
        exact h2 (b, o) (by simp [List.zip_cons_cons])
      have hpt : promiseAllTimed (b.map synth) o = some (b.map synth) :=
        promiseAllTimed_perm (b.map synth) o hp
      show (match promiseAllTimed (b.map synth) o with
        | none => none
        | some blobs =>
          match pipeBatchesTimed synth rest os with
          | none => none
          | some more => some (blobs.flatten ++ more)) = _
      rw [hpt, ih os (by simpa using h1) (fun pr hpr => h2 pr (List.mem_cons_of_mem _ hpr))]
      simp

theorem collectBatchesTimed_eq (synth : Text → List Nat) :
    ∀ (bs : List (List Text)) (orders : List (List Nat)),
      orders.length = bs.length →
      (∀ pr ∈ bs.zip orders, List.Perm pr.2 (List.range pr.1.length)) →
      collectBatchesTimed synth bs orders = some ((bs.map (fun b => b.map synth)).flatten) := by
  intro bs
  induction bs with
  | nil => intro orders _ _; rfl
  | cons b rest ih =>
    intro orders h1 h2
    rcases orders with _ | ⟨o, os⟩
    · simp at h1
    · have hp : List.Perm o (List.range (b.map synth).length) := by
        rw [List.length_map]
        exact h2 (b, o) (by simp [List.zip_cons_cons])
      have hpt : promiseAllTimed (b.map synth) o = some (b.map synth) :=
        promiseAllTimed_perm (b.map synth) o hp
      show (match promiseAllTimed (b.map synth) o with
        | none => none
        | some blobs =>
          match collectBatchesTimed synth rest os with
          | none => none
          | some more => some (blobs ++ more)) = _
      rw [hpt, ih os (by simpa using h1) (fun pr hpr => h2 pr (List.mem_cons_of_mem _ hpr))]
      simp

theorem flatten_map_flatten_map (f : α → List β) :
    ∀ bss : List (List α),
      ((bss.map (fun b => (b.map f).flatten)).flatten) = ((bss.flatten).map f).flatten := by
  intro bss
  induction bss with
  | nil => rfl
  | cons b rest ih =>
    simp only [List.map_cons, List.flatten_cons, List.map_append, List.flatten_append, ih]

/-- C1: for every job (chunk list, concurrency of at least one, both output
modes) and every completion timing of the concurrent calls inside each batch
(any permutation of each batch's indices as completion order), the response
bytes are exactly the concatenation of the per-chunk synthesis results in the
chunks' original index order. -/
theorem c1_output_order_matches_input_order (chunks : List Text) (K : Nat)
    (synth : Text → List Nat) (orders : List (List Nat)) (hK : 1 ≤ K)
    (hlen : orders.length = (sliceEvery chunks K).length)
    (hperm : ∀ pr ∈ (sliceEvery chunks K).zip orders, List.Perm pr.2 (List.range pr.1.length)) :
    pipeChunksToStreamTimed chunks K synth orders = some ((chunks.map synth).flatten) ∧
    getVoiceTimed chunks K synth orders = some ((chunks.map synth).flatten) := by
  constructor
  · rw [pipeChunksToStreamTimed, pipeBatchesTimed_eq synth _ orders hlen hperm,
      flatten_map_flatten_map synth, sliceEvery_join K hK]
  · rw [getVoiceTimed, collectBatchesTimed_eq synth _ orders hlen hperm]
    show some ((((sliceEvery chunks K).map (fun b => b.map synth)).flatten).flatten) = _
    rw [← List.map_flatten, sliceEvery_join K hK]

/-- Witness for C1 at a concrete job: three chunks, concurrency two, and an
out-of-order completion of the first batch. -/
theorem c1_output_order_matches_input_order_witness :
    pipeChunksToStreamTimed [['a'], ['b'], ['c']] 2 (fun t => t.map Char.toNat) [[1, 0], [0]]
        = some ((([['a'], ['b'], ['c']] : List Text).map (fun t => t.map Char.toNat)).flatten) ∧
    getVoiceTimed [['a'], ['b'], ['c']] 2 (fun t => t.map Char.toNat) [[1, 0], [0]]
        = some ((([['a'], ['b'], ['c']] : List Text).map (fun t => t.map Char.toNat)).flatten) :=
  c1_output_order_matches_input_order [['a'], ['b'], ['c']] 2 (fun t => t.map Char.toNat)
    [[1, 0], [0]] (by decide) (by decide) (by decide)

/-- C2: for a job of M chunks and concurrency K of at least one, the scheduler
partitions the ordered chunk list into exactly ceil(M/K) consecutive batches,
each of at most K chunks, and the batches concatenate back to the chunk list
in order; the model functions getVoice and pipeChunksToStream drive these
batches strictly in sequence, awaiting each batch's promiseAll before the
next. -/
theorem c2_batch_partition (chunks : List Text) (K : Nat) (hK : 1 ≤ K) :
    (sliceEvery chunks K).length = (chunks.length + K - 1) / K ∧
    (∀ b ∈ sliceEvery chunks K, b.length ≤ K) ∧
    (sliceEvery chunks K).flatten = chunks :=
  ⟨sliceEvery_length K hK chunks, sliceEvery_mem_le K chunks, sliceEvery_join K hK chunks⟩

/-- Witness for C2 at a concrete job: five chunks, concurrency two, three
batches. -/
theorem c2_batch_partition_witness :
    (sliceEvery [['a'], ['b'], ['c'], ['d'], ['e']] 2).length
        = ((5 : Nat) + 2 - 1) / 2 ∧
    (∀ b ∈ sliceEvery [['a'], ['b'], ['c'], ['d'], ['e']] 2, b.length ≤ 2) ∧
    (sliceEvery [['a'], ['b'], ['c'], ['d'], ['e']] 2).flatten
        = [['a'], ['b'], ['c'], ['d'], ['e']] :=
  c2_batch_partition [['a'], ['b'], ['c'], ['d'], ['e']] 2 (by decide)

theorem promiseAll_error_of_mem (ts : List (Except ε α)) (e : ε)
    (hx : Except.error e ∈ ts) : ∃ e2, promiseAll ts = Except.error e2 := by
  induction ts with
  | nil => simp at hx
  | cons t rest ih =>
    rcases List.mem_cons.mp hx with h | h
    · subst h
      exact ⟨e, rfl⟩
    · obtain ⟨e2, h2⟩ := ih h
      rcases t with e3 | a
      · exact ⟨e3, rfl⟩
      · refine ⟨e2, ?_⟩
        show (match Except.ok a, promiseAll rest with
          | .ok a, .ok as => Except.ok (a :: as)
          | .error e, _ => .error e
          | .ok _, .error e => .error e) = _
        rw [h2]

theorem collectBatches_error_of_mem (synth : Text → Except String (List Nat)) :
    ∀ bs : List (List Text), ∀ c ∈ bs.flatten, ∀ e, synth c = .error e →
      ∃ e2, collectBatches synth bs = .error e2 := by
  intro bs
  induction bs with
  | nil => intro c hc; simp at hc
  | cons b rest ih =>
    intro c hc e he
    rcases hpa : promiseAll (b.map synth) with e3 | blobs
    · exact ⟨e3, by simp [collectBatches, hpa]⟩
    · rw [List.flatten_cons] at hc
      rcases List.mem_append.mp hc with h | h
      · obtain ⟨e2, h2⟩ := promiseAll_error_of_mem (b.map synth) e
          (by exact (he ▸ List.mem_map_of_mem synth h : Except.error e ∈ b.map synth))
        rw [h2] at hpa
        simp at hpa
      · obtain ⟨e2, h2⟩ := ih c h e he
        exact ⟨e2, by simp [collectBatches, hpa, h2]⟩

/-- C8: in buffered (non-streaming) mode, if any chunk's synthesis call fails,
the whole job answers the clean 500 error response and no audio response is
produced, regardless of other chunks having succeeded. -/
theorem c8_buffered_failure_aborts (chunks : List Text) (K : Nat)
    (synth : Text → Except String (List Nat)) (hK : 1 ≤ K)
    (hfail : ∃ c ∈ chunks, ∃ e, synth c = .error e) :
    (∃ e2, getVoice chunks K synth = .error 500 e2) ∧
    ∀ bytes, getVoice chunks K synth ≠ .audio bytes := by
  obtain ⟨c, hc, e, he⟩ := hfail
  have hcf : c ∈ (sliceEvery chunks K).flatten := by
    rw [sliceEvery_join K hK]
    exact hc
  obtain ⟨e2, h2⟩ := collectBatches_error_of_mem synth _ c hcf e he
  refine ⟨⟨e2, by simp [getVoice, h2]⟩, ?_⟩
  intro bytes
  simp [getVoice, h2]

/-- Witness for C8 at a concrete job: second chunk fails. -/
theorem c8_buffered_failure_aborts_witness :
    (∃ e2, getVoice [['a'], ['b']] 1
        (fun t => if t = ['b'] then .error "boom" else .ok [1]) = .error 500 e2) ∧
    ∀ bytes, getVoice [['a'], ['b']] 1
        (fun t => if t = ['b'] then .error "boom" else .ok [1]) ≠ .audio bytes :=
  c8_buffered_failure_aborts [['a'], ['b']] 1
    (fun t => if t = ['b'] then .error "boom" else .ok [1]) (by decide)
    ⟨['b'], by decide, "boom", rfl⟩

/-! The session-token manager: getEndpoint with its shared mutable cache
`tokenInfo` (src/_worker.js lines 199-227, and the retry variant of
src/unnamed/part_000 lines 275-330 / part_001 lines 2473-2536).  The state is
passed explicitly; the upstream fetch (together with the JSON parse and the
base64/JSON decoding of the JWT middle segment, all inside the same try) is an
oracle: a success carries the response body and the decoded exp claim, an
error covers a non-2xx status, a transport failure or a parse/decode
failure. -/

/-- The endpoint response body: a region code `r` and the bearer token `t`. -/
structure EndpointData where
  r : String
  t : String
deriving DecidableEq

/-- The shared cache `let tokenInfo = { endpoint: null, token: null,
expiredAt: null }`; the time value is in seconds. -/
structure TokenInfo where
  endpoint : Option EndpointData
  token : Option String
  expiredAt : Option Int
deriving DecidableEq

/-- `const TOKEN_REFRESH_BEFORE_EXPIRY = 5 * 60`. -/
def TOKEN_REFRESH_BEFORE_EXPIRY : Int := 5 * 60

/-- JavaScript numeric coercion of a possibly-null field in subtraction
(null behaves as 0). -/
def numOrZero : Option Int → Int
  | none => 0
  | some v => v

/-- JavaScript truthiness of a possibly-null number (null and 0 are falsy). -/
def truthyNum : Option Int → Bool
  | none => false
  | some v => v != 0

/-- Freshness guard of the retry variants (part_000 line 277 / part_001 line
2475): `tokenInfo.token && now < tokenInfo.expiredAt -
TOKEN_REFRESH_BEFORE_EXPIRY`. -/
def tokenFresh (ti : TokenInfo) (now : Int) : Bool :=
  ti.token.isSome && decide (now < numOrZero ti.expiredAt - TOKEN_REFRESH_BEFORE_EXPIRY)

/-- Freshness guard of src/_worker.js line 204: `tokenInfo.token &&
tokenInfo.expiredAt && now < tokenInfo.expiredAt - TOKEN_REFRESH_BEFORE_EXPIRY`
(the extra truthiness test makes a cached expiry of exactly 0 count as
missing). -/
def tokenFreshW (ti : TokenInfo) (now : Int) : Bool :=
  ti.token.isSome && truthyNum ti.expiredAt &&
    decide (now < numOrZero ti.expiredAt - TOKEN_REFRESH_BEFORE_EXPIRY)

/-- One upstream token-endpoint attempt: body plus decoded exp, or failure. -/
abbrev FetchOutcome := Except String (EndpointData × Int)

/-- Observable outcome of one getEndpoint call: the returned value or thrown
error, the cache state afterwards, the backoff delays slept (in ms, in order),
and how many fetch attempts were made. -/
structure EndpointResult where
  result : Except String (Option EndpointData)
  state : TokenInfo
  delaysMs : List Nat
  attempts : Nat

/-- The single cache assignment `tokenInfo = { endpoint: data, token: data.t,
expiredAt: decodedJwt.exp }`: the whole record is replaced at once. -/
def storeToken (data : EndpointData) (exp : Int) : TokenInfo :=
  { endpoint := some data, token := some data.t, expiredAt := some exp }

/-- getEndpoint of the retry variants (part_000 lines 275-330, part_001 lines
2473-2536): fresh cache short-circuits; otherwise the attempt loop
(`for (attempt = 1; attempt <= 3; attempt++)`, unrolled here) tries up to
three times, sleeping `1000 * attempt` ms after each failed attempt but the
last; on success the cache is replaced and the data returned; with all three
failed, a cached token is returned as fallback, else the last error is
rethrown. -/
def getEndpoint (ti : TokenInfo) (now : Int) (fetch : Nat → FetchOutcome) : EndpointResult :=
  if tokenFresh ti now then ⟨.ok ti.endpoint, ti, [], 0⟩
  else
    match fetch 1 with
    | .ok (data, exp) => ⟨.ok (some data), storeToken data exp, [], 1⟩
    | .error _ =>
      match fetch 2 with
      | .ok (data, exp) => ⟨.ok (some data), storeToken data exp, [1000 * 1], 2⟩
      | .error _ =>
        match fetch 3 with
        | .ok (data, exp) => ⟨.ok (some data), storeToken data exp, [1000 * 1, 1000 * 2], 3⟩
        | .error m3 =>
          if ti.token.isSome then ⟨.ok ti.endpoint, ti, [1000 * 1, 1000 * 2], 3⟩
          else ⟨.error m3, ti, [1000 * 1, 1000 * 2], 3⟩

/-- getEndpoint of src/_worker.js (lines 202-227): fresh cache
short-circuits; otherwise a single attempt, whose failure falls back to any
cached token and rethrows only with an empty cache. -/
def getEndpointW (ti : TokenInfo) (now : Int) (fetch : FetchOutcome) : EndpointResult :=
  if tokenFreshW ti now then ⟨.ok ti.endpoint, ti, [], 0⟩
  else
    match fetch with
    | .ok (data, exp) => ⟨.ok (some data), storeToken data exp, [], 1⟩
    | .error m =>
      if ti.token.isSome then ⟨.ok ti.endpoint, ti, [], 1⟩
      else ⟨.error m, ti, [], 1⟩

theorem getEndpoint_stale_cases (ti : TokenInfo) (now : Int) (fetch : Nat → FetchOutcome)
    (hstale : tokenFresh ti now = false) :
    (∃ d e, fetch 1 = .ok (d, e) ∧
        getEndpoint ti now fetch = ⟨.ok (some d), storeToken d e, [], 1⟩) ∨
    (∃ m1 d e, fetch 1 = .error m1 ∧ fetch 2 = .ok (d, e) ∧
        getEndpoint ti now fetch = ⟨.ok (some d), storeToken d e, [1000 * 1], 2⟩) ∨
    (∃ m1 m2 d e, fetch 1 = .error m1 ∧ fetch 2 = .error m2 ∧ fetch 3 = .ok (d, e) ∧
        getEndpoint ti now fetch
          = ⟨.ok (some d), storeToken d e, [1000 * 1, 1000 * 2], 3⟩) ∨
    (∃ m1 m2 m3, fetch 1 = .error m1 ∧ fetch 2 = .error m2 ∧ fetch 3 = .error m3 ∧
        getEndpoint ti now fetch
          = if ti.token.isSome then ⟨.ok ti.endpoint, ti, [1000 * 1, 1000 * 2], 3⟩
            else ⟨.error m3, ti, [1000 * 1, 1000 * 2], 3⟩) := by
  have hne : ¬ (tokenFresh ti now = true) := by simp [hstale]
  rcases h1 : fetch 1 with m1 | ⟨d1, e1⟩
  · rcases h2 : fetch 2 with m2 | ⟨d2, e2⟩
    · rcases h3 : fetch 3 with m3 | ⟨d3, e3⟩
      · refine Or.inr (Or.inr (Or.inr ⟨m1, m2, m3, rfl, rfl, rfl, ?_⟩))
        simp [getEndpoint, hne, h1, h2, h3]
      · refine Or.inr (Or.inr (Or.inl ⟨m1, m2, d3, e3, rfl, rfl, rfl, ?_⟩))
        simp [getEndpoint, hne, h1, h2, h3]
    · refine Or.inr (Or.inl ⟨m1, d2, e2, rfl, rfl, ?_⟩)
      simp [getEndpoint, hne, h1, h2]
  · refine Or.inl ⟨d1, e1, rfl, ?_⟩
    simp [getEndpoint, hne, h1]

/-- C4: a fresh cached token (now strictly below expiry minus the 300-second
margin) is returned with no fetch; otherwise at least one refresh attempt is
made before anything else; in particular a cached expiry of now + 200 seconds
is stale (triggers refresh) and one of now + 600 seconds is fresh (no fetch),
in both the retry variants and the single-attempt worker (the latter needs
the expiry to be truthy). -/
theorem c4_token_reuse_and_refresh (ti : TokenInfo) (now : Int)
    (fetch : Nat → FetchOutcome) (fw : FetchOutcome) :
    (tokenFresh ti now = true →
      getEndpoint ti now fetch = ⟨.ok ti.endpoint, ti, [], 0⟩) ∧
    (tokenFresh ti now = false → 1 ≤ (getEndpoint ti now fetch).attempts) ∧
    (tokenFreshW ti now = true →
      getEndpointW ti now fw = ⟨.ok ti.endpoint, ti, [], 0⟩) ∧
    (tokenFreshW ti now = false → 1 ≤ (getEndpointW ti now fw).attempts) ∧
    (∀ data tok, tokenFresh ⟨some data, some tok, some (now + 200)⟩ now = false) ∧
    (∀ data tok, tokenFresh ⟨some data, some tok, some (now + 600)⟩ now = true) ∧
    (∀ data tok, tokenFreshW ⟨some data, some tok, some (now + 200)⟩ now = false) ∧
    (∀ data tok, now + 600 ≠ 0 →
      tokenFreshW ⟨some data, some tok, some (now + 600)⟩ now = true) := by
  refine ⟨?_, ?_, ?_, ?_, ?_, ?_, ?_, ?_⟩
  · intro h
    simp [getEndpoint, h]
  · intro h
    rcases getEndpoint_stale_cases ti now fetch h with
      ⟨d, e, _, heq⟩ | ⟨m1, d, e, _, _, heq⟩ | ⟨m1, m2, d, e, _, _, _, heq⟩ |
      ⟨m1, m2, m3, _, _, _, heq⟩
    · rw [heq]
    · rw [heq]; simp
    · rw [heq]; simp
    · rw [heq]
      by_cases ht : ti.token.isSome = true <;> simp [ht]
  · intro h
    simp [getEndpointW, h]
  · intro h
    have hne : ¬ (tokenFreshW ti now = true) := by simp [h]
    rcases hf : fw with m | ⟨d, e⟩
    · by_cases ht : ti.token.isSome = true <;> simp [getEndpointW, hne, hf, ht]
    · simp [getEndpointW, hne, hf]
  · intro data tok
    simp only [tokenFresh, numOrZero, TOKEN_REFRESH_BEFORE_EXPIRY, Option.isSome_some,
      Bool.true_and, decide_eq_false_iff_not]
    omega
  · intro data tok
    simp only [tokenFresh, numOrZero, TOKEN_REFRESH_BEFORE_EXPIRY, Option.isSome_some,
      Bool.true_and, decide_eq_true_eq]
    omega
  · intro data tok
    simp only [tokenFreshW, numOrZero, TOKEN_REFRESH_BEFORE_EXPIRY, Option.isSome_some,
      truthyNum, Bool.true_and, Bool.and_eq_false_iff, decide_eq_false_iff_not]
    right
    omega
  · intro data tok hnz
    simp only [tokenFreshW, numOrZero, TOKEN_REFRESH_BEFORE_EXPIRY, Option.isSome_some,
      truthyNum, Bool.true_and, Bool.and_eq_true, bne_iff_ne, ne_eq, decide_eq_true_eq]
    exact ⟨hnz, by omega⟩

/-- Witness for C4: a cache expiring at 1000 is fresh at time 0 and returned
without a fetch; an empty cache makes at least one attempt. -/
theorem c4_token_reuse_and_refresh_witness :
    getEndpoint ⟨some ⟨"eastasia", "tok"⟩, some "tok", some 1000⟩ 0 (fun _ => .error "down")
      = ⟨.ok (some ⟨"eastasia", "tok"⟩), ⟨some ⟨"eastasia", "tok"⟩, some "tok", some 1000⟩,
          [], 0⟩ ∧
    1 ≤ (getEndpoint ⟨none, none, none⟩ 0 (fun _ => .error "down")).attempts :=
  ⟨(c4_token_reuse_and_refresh ⟨some ⟨"eastasia", "tok"⟩, some "tok", some 1000⟩ 0
      (fun _ => .error "down") (.error "down")).1 (by decide),
   (c4_token_reuse_and_refresh ⟨none, none, none⟩ 0
      (fun _ => .error "down") (.error "down")).2.1 (by decide)⟩

/-- C5: on the refresh path, at most 3 attempts are made; the backoff delays
are exactly 1000 ms times the attempt number for every attempt before the
last one made; when all three attempts fail and a (possibly expired) token is
cached, the stale cached endpoint is returned with the cache untouched; an
error propagates exactly when all attempts failed and no token was cached. -/
theorem c5_retry_backoff_and_fallback (ti : TokenInfo) (now : Int)
    (fetch : Nat → FetchOutcome) (hstale : tokenFresh ti now = false) :
    ((getEndpoint ti now fetch).attempts ≤ 3) ∧
    ((getEndpoint ti now fetch).delaysMs
        = (List.range ((getEndpoint ti now fetch).attempts - 1)).map (fun i => 1000 * (i + 1))) ∧
    ((∀ k, 1 ≤ k → k ≤ 3 → ∃ m, fetch k = .error m) → ti.token.isSome = true →
      (getEndpoint ti now fetch).result = .ok ti.endpoint ∧
        (getEndpoint ti now fetch).state = ti) ∧
    ((∀ k, 1 ≤ k → k ≤ 3 → ∃ m, fetch k = .error m) → ti.token = none →
      ∃ m, (getEndpoint ti now fetch).result = .error m) ∧
    (∀ m, (getEndpoint ti now fetch).result = .error m →
      (∀ k, 1 ≤ k → k ≤ 3 → ∃ m2, fetch k = .error m2) ∧ ti.token = none) := by
  rcases getEndpoint_stale_cases ti now fetch hstale with
    ⟨d, e, hf1, heq⟩ | ⟨m1, d, e, hf1, hf2, heq⟩ |
    ⟨m1, m2, d, e, hf1, hf2, hf3, heq⟩ | ⟨m1, m2, m3, hf1, hf2, hf3, heq⟩
  · refine ⟨by rw [heq]; try simp, by rw [heq]; try simp [List.range_succ], ?_, ?_, ?_⟩
    · intro hall _
      obtain ⟨m, hm⟩ := hall 1 (by omega) (by omega)
      rw [hf1] at hm
      simp at hm
    · intro hall _
      obtain ⟨m, hm⟩ := hall 1 (by omega) (by omega)
      rw [hf1] at hm
      simp at hm
    · intro m hx
      rw [heq] at hx
      simp at hx
  · refine ⟨by rw [heq]; try simp, by rw [heq]; try simp [List.range_succ], ?_, ?_, ?_⟩
    · intro hall _
      obtain ⟨m, hm⟩ := hall 2 (by omega) (by omega)
      rw [hf2] at hm
      simp at hm
    · intro hall _
      obtain ⟨m, hm⟩ := hall 2 (by omega) (by omega)
      rw [hf2] at hm
      simp at hm
    · intro m hx
      rw [heq] at hx
      simp at hx
  · refine ⟨by rw [heq]; try simp, by rw [heq]; try simp [List.range_succ], ?_, ?_, ?_⟩
    · intro hall _
      obtain ⟨m, hm⟩ := hall 3 (by omega) (by omega)
      rw [hf3] at hm
      simp at hm
    · intro hall _
      obtain ⟨m, hm⟩ := hall 3 (by omega) (by omega)
      rw [hf3] at hm
      simp at hm
    · intro m hx
      rw [heq] at hx
      simp at hx
  · by_cases ht : ti.token.isSome = true
    · rw [if_pos ht] at heq
      refine ⟨by rw [heq]; try simp, by rw [heq]; try simp [List.range_succ], ?_, ?_, ?_⟩
      · intro _ _
        rw [heq]
        exact ⟨rfl, rfl⟩
      · intro _ hnone
        rw [hnone] at ht
        simp at ht
      · intro m hx
        rw [heq] at hx
        simp at hx
    · rw [if_neg ht] at heq
      have hnone : ti.token = none := Option.not_isSome_iff_eq_none.mp ht
      refine ⟨by rw [heq]; try simp, by rw [heq]; try simp [List.range_succ], ?_, ?_, ?_⟩
      · intro _ htok
        rw [htok] at ht
        simp at ht
      · intro _ _
        exact ⟨m3, by rw [heq]⟩
      · intro m _
        refine ⟨?_, hnone⟩
        intro k hk1 hk3
        interval_cases k
        · exact ⟨m1, hf1⟩
        · exact ⟨m2, hf2⟩
        · exact ⟨m3, hf3⟩

/-- Witness for C5 on an empty cache with every attempt failing: three
attempts, delays of 1000 and 2000 ms, and a propagated error. -/
theorem c5_retry_backoff_and_fallback_witness :
    (getEndpoint ⟨none, none, none⟩ 0 (fun _ => .error "down")).attempts ≤ 3 ∧
    (getEndpoint ⟨none, none, none⟩ 0 (fun _ => .error "down")).delaysMs
      = (List.range ((getEndpoint ⟨none, none, none⟩ 0
          (fun _ => .error "down")).attempts - 1)).map (fun i => 1000 * (i + 1)) ∧
    ∃ m, (getEndpoint ⟨none, none, none⟩ 0 (fun _ => .error "down")).result = .error m := by
  have h := c5_retry_backoff_and_fallback ⟨none, none, none⟩ 0 (fun _ => .error "down")
    (by decide)
  exact ⟨h.1, h.2.1, h.2.2.2.1 (fun k _ _ => ⟨"down", rfl⟩) rfl⟩

/-- C10: the shared token cache is only ever replaced as a whole record, with
the bearer string of the returned body and the decoded exp claim, and only by
a fully successful acquisition (the attempt whose fetch succeeded); on every
failure path - and in particular whenever every attempt fails - the cache is
exactly what it was before the call, in both the retry variants and the
single-attempt worker. -/
theorem c10_token_cache_atomic_update (ti : TokenInfo) (now : Int)
    (fetch : Nat → FetchOutcome) (fw : FetchOutcome) :
    ((getEndpoint ti now fetch).state = ti ∨
      ∃ d e, fetch (getEndpoint ti now fetch).attempts = .ok (d, e) ∧
        (getEndpoint ti now fetch).state = ⟨some d, some d.t, some e⟩) ∧
    ((∀ k, 1 ≤ k → k ≤ 3 → ∃ m, fetch k = .error m) → (getEndpoint ti now fetch).state = ti) ∧
    ((getEndpointW ti now fw).state = ti ∨
      ∃ d e, fw = .ok (d, e) ∧ (getEndpointW ti now fw).state = ⟨some d, some d.t, some e⟩) ∧
    (∀ m, fw = .error m → (getEndpointW ti now fw).state = ti) := by
  have hmain : (getEndpoint ti now fetch).state = ti ∨
      ∃ d e, fetch (getEndpoint ti now fetch).attempts = .ok (d, e) ∧
        (getEndpoint ti now fetch).state = ⟨some d, some d.t, some e⟩ := by
    by_cases hfr : tokenFresh ti now = true
    · left
      simp [getEndpoint, hfr]
    · rcases getEndpoint_stale_cases ti now fetch (by simpa using hfr) with
        ⟨d, e, hf1, heq⟩ | ⟨m1, d, e, hf1, hf2, heq⟩ |
        ⟨m1, m2, d, e, hf1, hf2, hf3, heq⟩ | ⟨m1, m2, m3, hf1, hf2, hf3, heq⟩
      · right
        exact ⟨d, e, by rw [heq]; exact hf1, by rw [heq]; rfl⟩
      · right
        exact ⟨d, e, by rw [heq]; exact hf2, by rw [heq]; rfl⟩
      · right
        exact ⟨d, e, by rw [heq]; exact hf3, by rw [heq]; rfl⟩
      · left
        rw [heq]
        by_cases ht : ti.token.isSome = true <;> simp [ht]
  have hfail : (∀ k, 1 ≤ k → k ≤ 3 → ∃ m, fetch k = .error m) →
      (getEndpoint ti now fetch).state = ti := by
    intro hall
    by_cases hfr : tokenFresh ti now = true
    · simp [getEndpoint, hfr]
    · rcases getEndpoint_stale_cases ti now fetch (by simpa using hfr) with
        ⟨d, e, hf1, heq⟩ | ⟨m1, d, e, hf1, hf2, heq⟩ |
        ⟨m1, m2, d, e, hf1, hf2, hf3, heq⟩ | ⟨m1, m2, m3, hf1, hf2, hf3, heq⟩
      · obtain ⟨m, hm⟩ := hall 1 (by omega) (by omega)
        rw [hf1] at hm
        simp at hm
      · obtain ⟨m, hm⟩ := hall 2 (by omega) (by omega)
        rw [hf2] at hm
        simp at hm
      · obtain ⟨m, hm⟩ := hall 3 (by omega) (by omega)
        rw [hf3] at hm
        simp at hm
      · rw [heq]
        by_cases ht : ti.token.isSome = true <;> simp [ht]
  have hw : ((getEndpointW ti now fw).state = ti ∨
      ∃ d e, fw = .ok (d, e) ∧ (getEndpointW ti now fw).state = ⟨some d, some d.t, some e⟩) := by
    by_cases hfr : tokenFreshW ti now = true
    · left
      simp [getEndpointW, hfr]
    · have hne : ¬ (tokenFreshW ti now = true) := hfr
      rcases hf : fw with m | ⟨d, e⟩
      · left
        by_cases ht : ti.token.isSome = true <;> simp [getEndpointW, hne, hf, ht]
      · right
        exact ⟨d, e, rfl, by simp [getEndpointW, hne, hf, storeToken]⟩
  refine ⟨hmain, hfail, hw, ?_⟩
  intro m hm
  by_cases hfr : tokenFreshW ti now = true
  · simp [getEndpointW, hfr]
  · by_cases ht : ti.token.isSome = true <;> simp [getEndpointW, hfr, hm, ht]

/-- Witness for C10: with an empty cache and every attempt failing, both
variants leave the cache untouched. -/
theorem c10_token_cache_atomic_update_witness :
    (getEndpoint ⟨none, none, none⟩ 0 (fun _ => .error "x")).state
      = (⟨none, none, none⟩ : TokenInfo) ∧
    (getEndpointW ⟨none, none, none⟩ 0 (.error "x")).state
      = (⟨none, none, none⟩ : TokenInfo) := by
  have h := c10_token_cache_atomic_update ⟨none, none, none⟩ 0 (fun _ => .error "x") (.error "x")
  exact ⟨h.2.1 (fun k _ _ => ⟨"x", rfl⟩), h.2.2.2 "x" rfl⟩

end EdgeTTS
